import Mathlib

/-!
Verification of the story-beat keyword extraction pipeline of
`keyword_phrases.py` (repository `sayless`).

The Python module is shallowly embedded below.  Strings are modelled as
`List Char` (ASCII scope: Python's `str.lower` and the `\w`/`\s` classes are
modelled by their ASCII behaviour, which covers every fixed vocabulary word
and every pattern the module uses).  Floating-point scores are modelled
exactly: the story-quality score uses only multiples of 1/100, so it is
embedded as an `Int` scaled by 100; the scores returned by the external
YAKE ranker are modelled as rationals.  The YAKE keyword ranker itself is an
external collaborator (spec section 6 treats it as a black box), so it is a
parameter `r : List Char → List (List Char × ℚ)` of the pipeline; every
concrete evaluation below goes through clauses of at most three filtered
tokens, for which the source never invokes the ranker.

Whole-word regex searches (`re.search(rf"\b{re.escape(p)}\b", q)`) are
always applied by the source to *cleaned* text, i.e. to space-joined
sequences of non-empty alphanumeric words.  On such strings a whole-word
match of a cleaned phrase is equivalent to its word list being a contiguous
sublist of the other word list, which is how they are embedded
(`listIsInfixB`).
-/

namespace Sayless

/-- Python word characters (`\w`), ASCII fragment. -/
def wordCharB (c : Char) : Bool :=
  ('a' ≤ c && c ≤ 'z') || ('A' ≤ c && c ≤ 'Z') || ('0' ≤ c && c ≤ '9') || c == '_'

/-- Python whitespace (`\s` / `str.split()` / `str.strip()`), ASCII fragment. -/
def pySpaceB (c : Char) : Bool :=
  c == ' ' || c == '\t' || c == '\n' || c == '\r' || c == '\x0b' || c == '\x0c'

/-- Lower-case ASCII letters or digits: the characters kept by `_clean_text`. -/
def keepCharB (c : Char) : Bool :=
  ('a' ≤ c && c ≤ 'z') || ('0' ≤ c && c ≤ '9')

/-- ASCII lower-casing, as `str.lower` acts on ASCII text. -/
def lowerChar (c : Char) : Char :=
  if 'A' ≤ c && c ≤ 'Z' then Char.ofNat (c.toNat + 32) else c

/-- Case-insensitive character comparison used by the `re.IGNORECASE` patterns. -/
def ciEq (a b : Char) : Bool := lowerChar a == lowerChar b

/-- Boolean prefix test. -/
def isPreB [BEq α] : List α → List α → Bool
  | [], _ => true
  | _ :: _, [] => false
  | a :: as, b :: bs => a == b && isPreB as bs

/-- Boolean contiguous-sublist (infix) test; embeds whole-word search on
cleaned strings at the level of their word lists. -/
def listIsInfixB [BEq α] (p : List α) : List α → Bool
  | [] => p.isEmpty
  | c :: rest => isPreB p (c :: rest) || listIsInfixB p rest

/-- Boolean suffix test (Python `str.endswith`). -/
def endsWithB (suf s : List Char) : Bool := isPreB suf.reverse s.reverse

/-- Case-insensitive literal match: strips `pat` off the front of the input,
returning the rest on success. -/
def stripCI : List Char → List Char → Option (List Char)
  | [], s => some s
  | _ :: _, [] => none
  | p :: ps, c :: cs => if ciEq p c then stripCI ps cs else none

/-- After a candidate match, `\b` requires the next character (if any) to be
a non-word character. -/
def boundaryAfterB : List Char → Bool
  | [] => true
  | c :: _ => !wordCharB c

/-- One pass of `re.sub(rf"\b{pat}\b", repl, s, re.IGNORECASE)` for a literal
`pat` that starts and ends with word characters (true of every pattern the
source substitutes): scan left to right, replacing each non-overlapping
boundary-delimited case-insensitive occurrence.  `prevWord` records whether
the previous original character was a word character; `fuel` starts at the
input length, which suffices because every pattern substituted by the source
is non-empty, so each step consumes at least one character. -/
def subWordAux (pat repl : List Char) : Nat → Bool → List Char → List Char
  | 0, _, _ => []
  | _ + 1, _, [] => []
  | fuel + 1, prevWord, c :: cs =>
    match (if prevWord then none else stripCI pat (c :: cs)) with
    | some rest =>
      if boundaryAfterB rest then
        repl ++ subWordAux pat repl fuel true rest
      else
        c :: subWordAux pat repl fuel (wordCharB c) cs
    | none => c :: subWordAux pat repl fuel (wordCharB c) cs

def subWord (pat repl s : List Char) : List Char :=
  subWordAux pat repl s.length false s

/-- One scan of `re.sub` with an alternation of literal word patterns
(`\b(p₁|p₂|…)\b`): at each position the alternatives are tried in order. -/
def tryPats (pats : List (List Char)) (s : List Char) : Option (List Char) :=
  match pats with
  | [] => none
  | p :: ps =>
    match stripCI p s with
    | some rest => if boundaryAfterB rest then some rest else tryPats ps s
    | none => tryPats ps s

def subAltsAux (pats : List (List Char)) (repl : List Char) :
    Nat → Bool → List Char → List Char
  | 0, _, _ => []
  | _ + 1, _, [] => []
  | fuel + 1, prevWord, c :: cs =>
    match (if prevWord then none else tryPats pats (c :: cs)) with
    | some rest => repl ++ subAltsAux pats repl fuel true rest
    | none => c :: subAltsAux pats repl fuel (wordCharB c) cs

def subAlts (pats : List (List Char)) (repl s : List Char) : List Char :=
  subAltsAux pats repl s.length false s

/-- `_expand_contractions`: eight sequential case-insensitive whole-word
literal substitutions. -/
def expand_contractions (s : List Char) : List Char :=
  let s := subWord ("i'm".data) ("I am".data) s
  let s := subWord ("i've".data) ("I have".data) s
  let s := subWord ("i'll".data) ("I will".data) s
  let s := subWord ("can't".data) ("cannot".data) s
  let s := subWord ("don't".data) ("do not".data) s
  let s := subWord ("won't".data) ("will not".data) s
  let s := subWord ("it's".data) ("it is".data) s
  subWord ("that's".data) ("that is".data) s

/-- One step of run grouping: a separator opens a new (empty) run, any other
character is prepended to the current front run. -/
def runStep (p : Char → Bool) (c : Char) (acc : List (List Char)) :
    List (List Char) :=
  if p c then [] :: acc
  else
    match acc with
    | [] => [[c]]
    | w :: ws => (c :: w) :: ws

/-- Maximal runs of characters not satisfying `p`; separators are dropped and
no empty runs are produced.  This is Python's `str.split()` for `p = pySpaceB`
and `re.split(r"[.,!?;:]+", s)`-followed-by-dropping-empties for punctuation. -/
def splitRuns (p : Char → Bool) (s : List Char) : List (List Char) :=
  (s.foldr (runStep p) []).filter (fun w => !w.isEmpty)

def splitWS (s : List Char) : List (List Char) := splitRuns pySpaceB s

/-- Space-joined word list (`" ".join(...)` and the collapsed form produced
by `_clean_text`). -/
def joinWords : List (List Char) → List Char
  | [] => []
  | [w] => w
  | w :: ws => w ++ ' ' :: joinWords ws

/-- The words of `_clean_text s`: lower-case, keep `[a-z0-9]`, everything
else becomes a separator. -/
def cleanWords (s : List Char) : List (List Char) :=
  splitWS (s.map (fun c => let c := lowerChar c; if keepCharB c then c else ' '))

/-- `_clean_text`: lower-case, strip `[^a-z0-9\s]`, collapse whitespace,
trim.  The result is exactly the space-join of `cleanWords`. -/
def clean_text (s : List Char) : List Char := joinWords (cleanWords s)

/-- `str.strip()` leaves nothing, i.e. the transcript is empty or whitespace
only: the early-return guard of `extract_key_phrases`. -/
def isBlank (s : List Char) : Bool := s.all pySpaceB

-- Fixed vocabularies, in source order.

def FILLERS : List (List Char) :=
  ["uh", "um", "eh", "lah", "leh", "lor", "sia", "bro", "bruh",
   "omg", "ya", "yah", "okay", "ok"].map String.data

def DISCOURSE : List (List Char) :=
  ["basically", "recently", "actually", "literally", "anyway", "anyways",
   "like", "just", "mean", "alright", "right", "kinda", "kind", "sorta",
   "sort", "so", "well"].map String.data

def STOPWORDS : List (List Char) :=
  ["i", "me", "my", "mine", "we", "our", "you", "your", "he", "she", "they",
   "it", "a", "an", "the", "and", "or", "but", "because", "then",
   "is", "am", "are", "was", "were", "be", "been", "being",
   "to", "of", "in", "on", "at", "for", "with", "as", "that", "this",
   "really", "very", "today", "now", "later",
   "ll", "im", "ive", "dont", "cant", "wont",
   "not"].map String.data

def GENERIC_DROP : List (List Char) :=
  ["day", "again", "whole", "time", "thing", "stuff",
   "supposed", "weeks", "week", "back", "speaking", "found",
   "next", "everywhere", "still", "shall", "there", "before",
   "we", "had", "such", "a"].map String.data

def EMOTION_WORDS : List (List Char) :=
  ["insecure", "anxious", "stressed", "worried", "scared",
   "sad", "angry", "upset", "happy", "excited",
   "tired", "tiring", "hungry", "confused", "awkward",
   "devastated", "embarrassed"].map String.data

def COMMON_VERBS : List (List Char) :=
  ["wake", "woke", "sleep", "overslept",
   "miss", "missed", "rush", "rushed", "run", "ran", "running",
   "drop", "dropped", "spill", "spilled",
   "cry", "cried", "laugh", "laughed",
   "shower", "showered", "forget", "forgot",
   "call", "called", "reach", "reached", "realise", "realised",
   "realize", "realized",
   "wear", "wearing", "wore",
   "choose", "choosing", "chose",
   "argue", "argued", "disagree", "disagreement",
   "break", "broke", "broken",
   "cheat", "cheated", "scream", "screaming",
   "rain", "raining", "rained",
   "want", "wanted", "go", "home"].map String.data

-- Tunables (scores are scaled by 100, see the module comment).

def RARE_TOKEN_FILL_THRESHOLD : Nat := 6

/-- `_normalize_tokens_for_order`: cleaned tokens with filler, stopword and
discourse words removed (generic-drop words are kept here). -/
def normalize_tokens_for_order (text : List Char) : List (List Char) :=
  (cleanWords (expand_contractions text)).filter
    (fun t => !FILLERS.contains t && !STOPWORDS.contains t && !DISCOURSE.contains t)

/-- `_split_clauses_keep_punct`: expand contractions, lower-case, replace the
coordinating markers by clause breaks, split on punctuation runs, strip and
drop empties.  (Stripping is subsumed: stripped-empty parts are exactly the
parts with no non-punctuation content only when whitespace is also taken as
content, so the strip is applied explicitly.) -/
def stripEnds (s : List Char) : List Char :=
  ((s.dropWhile (fun c => pySpaceB c)).reverse.dropWhile (fun c => pySpaceB c)).reverse

def CONJ_MARKERS : List (List Char) :=
  ["and then", "then", "but", "so"].map String.data

def isClausePunct (c : Char) : Bool :=
  c == '.' || c == ',' || c == '!' || c == '?' || c == ';' || c == ':'

def split_clauses_keep_punct (raw : List Char) : List (List Char) :=
  let s := (expand_contractions raw).map lowerChar
  let s := subAlts CONJ_MARKERS (", ".data) s
  ((splitRuns isClausePunct s).map stripEnds).filter (fun p => !p.isEmpty)

/-- `_phrase_tokens`: whitespace-split, then drop filler/stopword/discourse
words, words shorter than two characters, and generic-drop words. -/
def ptFilter (toks : List (List Char)) : List (List Char) :=
  toks.filter (fun t =>
    !FILLERS.contains t && !STOPWORDS.contains t && !DISCOURSE.contains t &&
    2 ≤ t.length && !GENERIC_DROP.contains t)

def phrase_tokens (text : List Char) : List (List Char) :=
  ptFilter (splitWS text)

/-- `_story_quality`, scaled by 100 (the Python constants 0.4, 1.2, 1.1,
−0.9, 0.9, 0.03 are all multiples of 1/100). -/
def story_quality (toks : List (List Char)) : Int :=
  if toks.isEmpty then -99900
  else
    (if toks.length = 1 then 40
     else if toks.length = 2 then 120
     else if toks.length = 3 then 110
     else -90)
    + (if toks.any (fun t =>
          COMMON_VERBS.contains t || endsWithB ("ed".data) t ||
          endsWithB ("ing".data) t) then 90 else 0)
    + 3 * ((toks.map (fun t => min t.length 10)).sum : Int)

/-- `_first_pos_of_any_token` returns `10 ** 9` when no phrase token occurs. -/
def NOT_FOUND : Nat := 1000000000

def firstPosAux (pts : List (List Char)) : Nat → List (List Char) → Nat
  | _, [] => NOT_FOUND
  | i, t :: rest => if pts.contains t then i else firstPosAux pts (i + 1) rest

def first_pos_of_any_token (full_tokens pts : List (List Char)) : Nat :=
  firstPosAux pts 0 full_tokens

/-- `_story_rule_phrases`: fixed regex-detectable narrative markers on the
cleaned expanded transcript, deduplicated keeping first occurrence and
suppressing generic-drop entries. -/
def TIME_MARKERS : List (List Char) :=
  ["today", "yesterday", "after lunch", "before lunch", "next day",
   "tomorrow"].map String.data

def keepFirsts [BEq α] : List α → List α → List α
  | _, [] => []
  | seen, a :: rest =>
    if seen.contains a then keepFirsts seen rest
    else a :: keepFirsts (a :: seen) rest

def dedupFirst [BEq α] (l : List α) : List α := keepFirsts [] l

def story_rules_raw (toks : List (List Char)) : List (List Char) :=
  (TIME_MARKERS.filter (fun tm => listIsInfixB (splitWS tm) toks))
  ++ (if toks.any (fun w =>
        w == ("rain".data) || w == ("raining".data) || w == ("rained".data))
      then [("raining".data)] else [])
  ++ (if toks.contains ("weather".data) then [("weather".data)] else [])
  ++ (if toks.any (fun w =>
        w == ("tire".data) || w == ("tiring".data) || w == ("tired".data))
      then [("tiring".data)] else [])
  ++ (if toks.contains ("sleep".data) then [("sleep".data)] else [])
  ++ (if listIsInfixB (["go", "home"].map String.data) toks
         || listIsInfixB (["wanted", "to", "go", "home"].map String.data) toks
      then [("go home".data)] else [])

def story_rule_phrases (raw : List Char) : List (List Char) :=
  dedupFirst ((story_rules_raw (cleanWords (expand_contractions raw))).filter
    (fun x => !GENERIC_DROP.contains x))

/-- `_extract_from_clause`.  `r` is the external YAKE ranker (text ↦ ranked
(phrase, score) pairs, lower score better); the source only reaches it when
the clause has more than three filtered tokens. -/
def yakeFilter (ranked : List (List Char × ℚ)) : List (List Char × ℚ) :=
  ranked.filterMap (fun pr =>
    let raw := splitWS pr.1
    if raw.contains ("not".data) && raw.any (fun w => EMOTION_WORDS.contains w)
    then none
    else
      let ptoks := phrase_tokens pr.1
      if ptoks.isEmpty || 5 < ptoks.length then none
      else
        let combined : ℚ := (story_quality ptoks : ℚ) / 100 - pr.2 / 2
        if combined < 1 then none else some (joinWords ptoks, combined))

def byScoreDesc : (List Char × ℚ) → (List Char × ℚ) → Prop :=
  fun a b => b.2 ≤ a.2

instance : DecidableRel byScoreDesc := fun a b =>
  inferInstanceAs (Decidable (b.2 ≤ a.2))

def extract_from_clause (r : List Char → List (List Char × ℚ))
    (clause : List Char) : List (List Char) :=
  if (phrase_tokens (clean_text (expand_contractions clause))).isEmpty then []
  else if (phrase_tokens (clean_text (expand_contractions clause))).length ≤ 3
  then [joinWords (phrase_tokens (clean_text (expand_contractions clause)))]
  else
    ((List.insertionSort byScoreDesc
        (yakeFilter (r (clean_text (expand_contractions clause))))).take 4).map
      Prod.fst

/-- Keep the elements of `l` whose index/value pair satisfies `P`. -/
def keepByIdx (P : Nat → α → Bool) (l : List α) : List α :=
  (l.enum.filter (fun x => P x.1 x.2)).map Prod.snd

/-- `_dedup_containment_strings`: drop a phrase whose cleaned string is a
whole-word substring of a strictly longer surviving phrase's cleaned
string. -/
def dedup_containment_strings (phrases : List (List Char)) : List (List Char) :=
  (keepByIdx
    (fun i pr =>
      !pr.2.isEmpty &&
      !((phrases.map (fun p => phrase_tokens (clean_text p))).enum.any (fun jq =>
          (jq.1 != i) && (joinWords jq.2 != joinWords pr.2) &&
          ((joinWords pr.2).length < (joinWords jq.2).length) &&
          listIsInfixB pr.2 jq.2)))
    (phrases.zip (phrases.map (fun p => phrase_tokens (clean_text p))))).map
    Prod.fst

/-- The Python `set(...)` of a phrase's filtered tokens, as a
duplicate-free list (first occurrences kept). -/
def phrase_set (p : List Char) : List (List Char) :=
  dedupFirst (phrase_tokens (clean_text p))

/-- Number of distinct shared tokens, `len(s & es)` for duplicate-free
argument lists. -/
def commonCount (s es : List (List Char)) : Nat :=
  (s.filter (fun a => es.contains a)).length

/-- `overlap >= 0.3` where `overlap = len(s & es) / max(1, min(len s, len es))`:
exactly `3 * max 1 (min |s| |es|) ≤ 10 * |s ∩ es|`. -/
def overlapGEB (s es : List (List Char)) : Bool :=
  decide (3 * max 1 (min s.length es.length) ≤ 10 * commonCount s es)

/-- The dedup ranking score: story quality plus 0.15 per token (scaled). -/
def score_phrase (p : List Char) : Int :=
  story_quality (phrase_tokens (clean_text p))
    + 15 * ((phrase_tokens (clean_text p)).length : Int)

/-- One new phrase against the kept representatives: at the first
representative whose overlap reaches 0.3 the new phrase merges, replacing it
only when it scores strictly higher.  Returns the updated kept list, whether
a merge occurred, and whether it was a replacement. -/
def mergeOne (p : List Char) (s : List (List Char)) :
    List (List Char × List (List Char)) →
      List (List Char × List (List Char)) × Bool × Bool
  | [] => ([], false, false)
  | (q, es) :: rest =>
    if overlapGEB s es then
      if score_phrase q < score_phrase p then ((p, s) :: rest, true, true)
      else ((q, es) :: rest, true, false)
    else
      ((q, es) :: (mergeOne p s rest).1,
        (mergeOne p s rest).2.1, (mergeOne p s rest).2.2)

/-- The set-overlap merge stage of `_dedup_keep_best`, also reporting whether
any kept representative was ever replaced. -/
def stage2Aux : List (List Char) → List (List Char × List (List Char)) →
    Bool → List (List Char × List (List Char)) × Bool
  | [], kept, flag => (kept, flag)
  | p :: ps, kept, flag =>
    if (phrase_set p).isEmpty then stage2Aux ps kept flag
    else if (mergeOne p (phrase_set p) kept).2.1 then
      stage2Aux ps (mergeOne p (phrase_set p) kept).1
        (flag || (mergeOne p (phrase_set p) kept).2.2)
    else stage2Aux ps (kept ++ [(p, phrase_set p)]) flag

/-- Final pass of `_dedup_keep_best`: drop a single-token phrase whose token
appears in another kept phrase of at least two tokens. -/
def absorbSingles (kept : List (List Char)) : List (List Char) :=
  (keepByIdx
    (fun i pr =>
      match pr.2 with
      | [tok] =>
        !((kept.map (fun p => (p, phrase_set p))).enum.any (fun jq =>
            (jq.1 != i) && jq.2.2.contains tok && decide (2 ≤ jq.2.2.length)))
      | _ => true)
    (kept.map (fun p => (p, phrase_set p)))).map Prod.fst

def dedup_keep_best (phrases : List (List Char)) : List (List Char) :=
  absorbSingles
    (((stage2Aux (dedup_containment_strings phrases) [] false).1).map Prod.fst)

/-- True when the set-overlap merge stage of this `_dedup_keep_best` run
replaced some kept representative. -/
def dedupReplaceFlag (phrases : List (List Char)) : Bool :=
  (stage2Aux (dedup_containment_strings phrases) [] false).2

/-- `_rare_tokens`: filtered transcript tokens occurring exactly once, of
length at least five and not generic-drop, in first-occurrence order. -/
def rare_tokens (text : List Char) : List (List Char) :=
  (dedupFirst (phrase_tokens (clean_text (expand_contractions text)))).filter
    (fun t =>
      (phrase_tokens (clean_text (expand_contractions text))).count t == 1 &&
      decide (5 ≤ t.length) && !GENERIC_DROP.contains t)

/-- `_phrase_length_filter`. -/
def phrase_length_filter (p : List Char) : Bool := decide (2 < p.length)

/-- Candidate generation: story-rule phrases first, then the per-clause
extractions in clause order. -/
def candidate_phrases (r : List Char → List (List Char × ℚ))
    (t : List Char) : List (List Char) :=
  story_rule_phrases t
    ++ ((split_clauses_keep_punct t).map (extract_from_clause r)).flatten

/-- The whole-word emotion vocabulary hits of the cleaned transcript, in
vocabulary order. -/
def present_emotions (t : List Char) : List (List Char) :=
  EMOTION_WORDS.filter (fun w => (cleanWords (expand_contractions t)).contains w)

/-- The emotion-word injection loop: each present emotion word not already in
the list is inserted at the front. -/
def inject_emotions (t : List Char) (l : List (List Char)) : List (List Char) :=
  (present_emotions t).foldl
    (fun acc w => if acc.contains w then acc else w :: acc) l

/-- The rare-token fill: when fewer than six beats survive, append each rare
token not already present and deduplicate once more. -/
def rare_fill (t : List Char) (l : List (List Char)) : List (List Char) :=
  if l.length < RARE_TOKEN_FILL_THRESHOLD then
    dedup_keep_best
      ((rare_tokens t).foldl
        (fun acc rt => if acc.contains rt then acc else acc ++ [rt]) l)
  else l

/-- Appearance order on phrases: position of the first phrase token in the
normalized transcript token sequence. -/
def appearKey (full_tokens : List (List Char)) (p : List Char) : Nat :=
  first_pos_of_any_token full_tokens (phrase_tokens (clean_text p))

def appearLe (full_tokens : List (List Char)) : List Char → List Char → Prop :=
  fun p q => appearKey full_tokens p ≤ appearKey full_tokens q

instance (full_tokens : List (List Char)) : DecidableRel (appearLe full_tokens) :=
  fun p q => inferInstanceAs (Decidable (_ ≤ _))

instance (full_tokens : List (List Char)) : IsTotal (List Char) (appearLe full_tokens) :=
  ⟨fun p q => Nat.le_total _ _⟩

instance (full_tokens : List (List Char)) : IsTrans (List Char) (appearLe full_tokens) :=
  ⟨fun _ _ _ h h' => Nat.le_trans h h'⟩

/-- Stages of `extract_key_phrases` after candidate generation: dedup, inject
emotions, dedup, conditional rare fill (with its dedup), sort by appearance,
length filter.  Python's `list.sort` is stable; `List.insertionSort` is the
stable ascending sort, so the orders agree. -/
def pipeline_after (t : List Char) (collected : List (List Char)) :
    List (List Char) :=
  (List.insertionSort (appearLe (normalize_tokens_for_order t))
    (rare_fill t (dedup_keep_best (inject_emotions t
      (dedup_keep_best collected))))).filter phrase_length_filter

def surviving_beats (r : List Char → List (List Char × ℚ)) (t : List Char) :
    List (List Char) :=
  pipeline_after t (candidate_phrases r t)

def neutralPhrase : List Char := "neutral".data

/-- `extract_key_phrases(transcript, max_k)`. -/
def extract_key_phrases (r : List Char → List (List Char × ℚ))
    (transcript : List Char) (max_k : Nat) : List (List Char) :=
  if isBlank transcript then [neutralPhrase]
  else if (candidate_phrases r transcript).isEmpty then [neutralPhrase]
  else if (surviving_beats r transcript).isEmpty then [neutralPhrase]
  else (surviving_beats r transcript).take max_k

/-- A ranker that returns no candidates; the concrete transcripts below only
contain clauses of at most three filtered tokens, for which the source never
consults the ranker. -/
def emptyRanker : List Char → List (List Char × ℚ) := fun _ => []

/-- Prepend a run of characters onto the first group of an accumulator (the
shape `List.foldr (runStep p)` takes on a separator-free run). -/
def consRun (w : List Char) (acc : List (List Char)) : List (List Char) :=
  match acc with
  | [] => [w]
  | g :: gs => (w ++ g) :: gs

/-- Transcript on which the final executed deduplication pass replaces a kept
representative, leaving two overlapping beats in the result. -/
def overlapTranscript : List Char :=
  ("magnet kite, brick lamp, stone jumping, magnet violin stone, lamp jumping, paper ocean, metal forest, sugar planet, button galaxy").data

/-- Transcript containing the emotion word `worried` whose forced injection
is later displaced by a set-overlap replacement. -/
def emotionLostTranscript : List Char :=
  ("worried beta, pencil jacket, gamma jumping elephant, worried gamma zeta").data

/-- Phrase list on which `_dedup_keep_best` is not idempotent. -/
def dedupDemoList : List (List Char) :=
  ["river cloud", "tiger mango", "river tiger stone"].map String.data

/-- Two-clause transcript used to witness the ordering theorem. -/
def orderTranscript : List Char := ("paper ocean, metal forest".data)

/-- Transcript made only of filler/discourse/stopword tokens and punctuation
(the stopword `today` also fires a story rule on it). -/
def fillerOnlyTranscript : List Char := ("um, like, so basically today!?".data)

end Sayless

namespace Sayless

set_option maxRecDepth 100000

-- Generic facts about `keepByIdx` and the deduplication stages.

theorem keepByIdx_sublist (P : Nat → α → Bool) (l : List α) :
    (keepByIdx P l).Sublist l := by
  have h := (List.filter_sublist (p := fun x => P x.1 x.2) l.enum).map Prod.snd
  rwa [List.enum_map_snd] at h

theorem dedup_containment_sublist (L : List (List Char)) :
    (dedup_containment_strings L).Sublist L := by
  have h : ∀ (P : Nat → (List Char × List (List Char)) → Bool)
      (f : List Char → List (List Char)),
      ((keepByIdx P (L.zip (L.map f))).map Prod.fst).Sublist L := by
    intro P f
    have h1 := (keepByIdx_sublist P (L.zip (L.map f))).map Prod.fst
    rwa [List.map_fst_zip _ _ (by simp)] at h1
  exact h _ _

theorem absorbSingles_sublist (kept : List (List Char)) :
    (absorbSingles kept).Sublist kept := by
  have h : ∀ (P : Nat → (List Char × List (List Char)) → Bool),
      ((keepByIdx P (kept.map (fun p => (p, phrase_set p)))).map Prod.fst).Sublist
        kept := by
    intro P
    have h1 := (keepByIdx_sublist P (kept.map (fun p => (p, phrase_set p)))).map
      Prod.fst
    rwa [List.map_map, show (Prod.fst ∘ fun p => (p, phrase_set p)) = id from rfl,
      List.map_id] at h1
  exact h _

theorem mergeOne_mem (p : List Char) (s : List (List Char)) :
    ∀ kept x, x ∈ (mergeOne p s kept).1 → x = (p, s) ∨ x ∈ kept := by
  intro kept
  induction kept with
  | nil => intro x hx; simp [mergeOne] at hx
  | cons qe rest ih =>
    intro x hx
    unfold mergeOne at hx
    by_cases h1 : overlapGEB s qe.2
    · simp only [h1, if_true] at hx
      by_cases h2 : score_phrase qe.1 < score_phrase p
      · simp only [h2, if_true] at hx
        rcases List.mem_cons.mp hx with h | h
        · exact Or.inl h
        · exact Or.inr (List.mem_cons_of_mem _ h)
      · simp only [h2, if_false] at hx
        exact Or.inr hx
    · simp only [h1, if_false] at hx
      rcases List.mem_cons.mp hx with h | h
      · exact Or.inr (h ▸ List.mem_cons_self _ _)
      · rcases ih x h with h' | h'
        · exact Or.inl h'
        · exact Or.inr (List.mem_cons_of_mem _ h')

theorem stage2Aux_mem :
    ∀ (ps : List (List Char)) kept flag x,
      x ∈ (stage2Aux ps kept flag).1 → x ∈ kept ∨ x.1 ∈ ps := by
  intro ps
  induction ps with
  | nil => intro kept flag x hx; exact Or.inl hx
  | cons p ps ih =>
    intro kept flag x hx
    unfold stage2Aux at hx
    by_cases h1 : (phrase_set p).isEmpty
    · simp only [h1, if_true] at hx
      rcases ih _ _ x hx with h | h
      · exact Or.inl h
      · exact Or.inr (List.mem_cons_of_mem _ h)
    · simp only [h1, if_false] at hx
      by_cases h2 : (mergeOne p (phrase_set p) kept).2.1
      · simp only [h2, if_true] at hx
        rcases ih _ _ x hx with h | h
        · rcases mergeOne_mem _ _ _ _ h with h' | h'
          · exact Or.inr (h' ▸ List.mem_cons_self _ _)
          · exact Or.inl h'
        · exact Or.inr (List.mem_cons_of_mem _ h)
      · simp only [h2, if_false] at hx
        rcases ih _ _ x hx with h | h
        · rcases List.mem_append.mp h with h' | h'
          · exact Or.inl h'
          · simp at h'
            exact Or.inr (h' ▸ List.mem_cons_self _ _)
        · exact Or.inr (List.mem_cons_of_mem _ h)

/-- The deduplicator never invents phrases: its output is a subset of its
input. -/
theorem dedup_keep_best_subset (L : List (List Char)) :
    ∀ p, p ∈ dedup_keep_best L → p ∈ L := by
  intro p hp
  unfold dedup_keep_best at hp
  have h1 := (absorbSingles_sublist _).subset hp
  rcases List.mem_map.mp h1 with ⟨x, hx, hfst⟩
  rcases stage2Aux_mem _ _ _ x hx with h | h
  · simp at h
  · exact (dedup_containment_sublist L).subset (hfst ▸ h)

-- Claim theorems C1, C2, C9, C10.

/-- C1: for every transcript and every `max_results ≥ 1` the extraction
returns a non-empty sequence; it is exactly `["neutral"]` when the transcript
is empty or whitespace-only, and `["neutral"]` whenever no other phrase
survives the pipeline.  (Totality holds by construction: the embedding is a
total function.) -/
theorem claim_C1 (r : List Char → List (List Char × ℚ)) (t : List Char)
    (k : Nat) (hk : 1 ≤ k) :
    extract_key_phrases r t k ≠ []
    ∧ (isBlank t = true → extract_key_phrases r t k = [neutralPhrase])
    ∧ (surviving_beats r t = [] → extract_key_phrases r t k = [neutralPhrase]) := by
  refine ⟨?_, ?_, ?_⟩
  · unfold extract_key_phrases
    split_ifs with h1 h2 h3
    · simp
    · simp
    · simp
    · intro hcon
      rcases List.take_eq_nil_iff.mp hcon with h | h
      · omega
      · simp [h] at h3
  · intro hb
    unfold extract_key_phrases
    simp [hb]
  · intro hs
    unfold extract_key_phrases
    split_ifs with h1 h2 h3
    · rfl
    · rfl
    · rfl
    · simp [hs] at h3

/-- C2: the result never exceeds the requested bound `max_results = k ≥ 1`. -/
theorem claim_C2 (r : List Char → List (List Char × ℚ)) (t : List Char)
    (k : Nat) (hk : 1 ≤ k) :
    (extract_key_phrases r t k).length ≤ k := by
  unfold extract_key_phrases
  split_ifs <;> simp [hk, List.length_take_le]

/-- C9: extraction is deterministic — two invocations with the same
transcript, bound and (black-box) ranker give the same output; the embedding
is a pure function of these arguments and the fixed vocabularies, which are
constants. -/
theorem claim_C9 (r : List Char → List (List Char × ℚ)) (t₁ t₂ : List Char)
    (k₁ k₂ : Nat) (ht : t₁ = t₂) (hk : k₁ = k₂) :
    extract_key_phrases r t₁ k₁ = extract_key_phrases r t₂ k₂ := by
  subst ht; subst hk; rfl

/-- C10: every string in the result (the fallback `"neutral"` included) has
character length strictly greater than two, because a final length filter
runs after ordering and before truncation. -/
theorem claim_C10 (r : List Char → List (List Char × ℚ)) (t : List Char)
    (k : Nat) (p : List Char) (hp : p ∈ extract_key_phrases r t k) :
    2 < p.length := by
  unfold extract_key_phrases at hp
  have hn : (2 : Nat) < neutralPhrase.length := by decide
  split_ifs at hp with h1 h2 h3
  · simp at hp; exact hp ▸ hn
  · simp at hp; exact hp ▸ hn
  · simp at hp; exact hp ▸ hn
  · have h4 : p ∈ surviving_beats r t := (List.take_sublist _ _).subset hp
    unfold surviving_beats pipeline_after at h4
    have h5 := List.of_mem_filter h4
    simpa [phrase_length_filter] using h5

-- Witnesses for the claims with hypotheses.

theorem claim_C1_witness :
    extract_key_phrases emptyRanker [] 10 ≠ []
    ∧ (isBlank [] = true → extract_key_phrases emptyRanker [] 10 = [neutralPhrase])
    ∧ (surviving_beats emptyRanker [] = [] →
        extract_key_phrases emptyRanker [] 10 = [neutralPhrase]) :=
  claim_C1 emptyRanker [] 10 (by decide)

theorem claim_C2_witness :
    (extract_key_phrases emptyRanker [] 3).length ≤ 3 :=
  claim_C2 emptyRanker [] 3 (by decide)

theorem claim_C9_witness :
    extract_key_phrases emptyRanker orderTranscript 5
      = extract_key_phrases emptyRanker orderTranscript 5 :=
  claim_C9 emptyRanker orderTranscript orderTranscript 5 5 rfl rfl

theorem claim_C10_witness : 2 < neutralPhrase.length :=
  claim_C10 emptyRanker [] 10 neutralPhrase (by decide)


-- Behaviour of the set-overlap merge stage when no replacement occurs.

theorem mergeOne_eq_of_not_replace (p : List Char) (s : List (List Char)) :
    ∀ kept, (mergeOne p s kept).2.2 = false → (mergeOne p s kept).1 = kept := by
  intro kept
  induction kept with
  | nil => intro _; rfl
  | cons qe rest ih =>
    intro h
    unfold mergeOne at h ⊢
    split_ifs at h ⊢ with h1 h2
    · simp
    · have h' : (mergeOne p s rest).2.2 = false := by simpa using h
      simpa using ih h'

theorem mergeOne_not_merged (p : List Char) (s : List (List Char)) :
    ∀ kept, (mergeOne p s kept).2.1 = false →
      (mergeOne p s kept).1 = kept ∧ ∀ x ∈ kept, overlapGEB s x.2 = false := by
  intro kept
  induction kept with
  | nil => intro _; exact ⟨rfl, by simp⟩
  | cons qe rest ih =>
    intro h
    unfold mergeOne at h ⊢
    split_ifs at h ⊢ with h1 h2
    · have h' : (mergeOne p s rest).2.1 = false := by simpa using h
      rcases ih h' with ⟨hrest, hall⟩
      refine ⟨by simpa using hrest, ?_⟩
      intro x hx
      rcases List.mem_cons.mp hx with hx' | hx'
      · rw [hx']; simpa using h1
      · exact hall x hx'

theorem stage2Aux_flag_true :
    ∀ (ps : List (List Char)) kept, (stage2Aux ps kept true).2 = true := by
  intro ps
  induction ps with
  | nil => intro kept; rfl
  | cons p ps ih =>
    intro kept
    unfold stage2Aux
    split_ifs with h1 h2
    · exact ih _
    · rw [Bool.true_or]; exact ih _
    · exact ih _

theorem stage2Aux_pairwise :
    ∀ (ps : List (List Char)) kept,
      (stage2Aux ps kept false).2 = false →
      List.Pairwise (fun a b => overlapGEB b.2 a.2 = false) kept →
      List.Pairwise (fun a b => overlapGEB b.2 a.2 = false)
        (stage2Aux ps kept false).1 := by
  intro ps
  induction ps with
  | nil => intro kept _ hkept; exact hkept
  | cons p ps ih =>
    intro kept hflag hkept
    unfold stage2Aux at hflag ⊢
    split_ifs at hflag ⊢ with h1 h2
    · exact ih _ hflag hkept
    · have hrep : (mergeOne p (phrase_set p) kept).2.2 = false := by
        by_contra hcon
        rw [Bool.not_eq_false] at hcon
        rw [hcon, Bool.or_true, stage2Aux_flag_true] at hflag
        simp at hflag
      rw [hrep, Bool.or_false,
        mergeOne_eq_of_not_replace p (phrase_set p) kept hrep] at hflag ⊢
      exact ih _ hflag hkept
    · have h2' : (mergeOne p (phrase_set p) kept).2.1 = false := by
        simpa using h2
      rcases mergeOne_not_merged p (phrase_set p) kept h2' with ⟨_, hall⟩
      refine ih _ hflag ?_
      rw [List.pairwise_append]
      refine ⟨hkept, by simp, ?_⟩
      intro a ha b hb
      simp only [List.mem_singleton] at hb
      rw [hb]
      exact hall a ha

theorem stage2Aux_sets :
    ∀ (ps : List (List Char)) kept flag,
      (∀ x ∈ kept, x.2 = phrase_set x.1) →
      ∀ x ∈ (stage2Aux ps kept flag).1, x.2 = phrase_set x.1 := by
  intro ps
  induction ps with
  | nil => intro kept flag h x hx; exact h x hx
  | cons p ps ih =>
    intro kept flag h x hx
    unfold stage2Aux at hx
    split_ifs at hx with h1 h2
    · exact ih _ _ h x hx
    · refine ih _ _ ?_ x hx
      intro y hy
      rcases mergeOne_mem p (phrase_set p) kept y hy with h' | h'
      · rw [h']
      · exact h y h'
    · refine ih _ _ ?_ x hx
      intro y hy
      rcases List.mem_append.mp hy with h' | h'
      · exact h y h'
      · simp only [List.mem_singleton] at h'
        rw [h']

/-- C3 (amended): in a `_dedup_keep_best` run in which the set-overlap merge
stage never replaces a kept representative, any two phrases of the output
have token-set overlap strictly below the 0.3 threshold (the overlap of the
later phrase's set against the earlier one's, exactly as the source computes
it).  A replacement can leave a pair at or above the threshold in the final
result of `extract_key_phrases`, as the counterexample shows. -/
theorem claim_C3 (L : List (List Char)) (hf : dedupReplaceFlag L = false) :
    List.Pairwise
      (fun p q => overlapGEB (phrase_set q) (phrase_set p) = false)
      (dedup_keep_best L) := by
  unfold dedupReplaceFlag at hf
  have h1 := stage2Aux_pairwise (dedup_containment_strings L) [] hf
    List.Pairwise.nil
  have h2 := stage2Aux_sets (dedup_containment_strings L) [] false (by simp)
  have h3 : List.Pairwise
      (fun p q => overlapGEB (phrase_set q) (phrase_set p) = false)
      (((stage2Aux (dedup_containment_strings L) [] false).1).map Prod.fst) := by
    rw [List.pairwise_map]
    exact h1.imp_of_mem fun {a b} ha hb hr => by
      rw [← h2 a ha, ← h2 b hb]; exact hr
  exact List.Pairwise.sublist (absorbSingles_sublist _) h3

/-- Counterexample to C3 as stated: on `overlapTranscript` the result of
`extract_key_phrases` contains the beats `"lamp jumping"` and
`"stone jumping"`, whose token sets overlap at 1/2 ≥ 0.3 while neither token
set is contained in the other. -/
theorem claim_C3_cex :
    extract_key_phrases emptyRanker overlapTranscript 10 =
      (["lamp jumping", "stone jumping", "paper ocean", "metal forest",
        "sugar planet", "button galaxy"].map String.data)
    ∧ overlapGEB (phrase_set ("lamp jumping".data))
        (phrase_set ("stone jumping".data)) = true
    ∧ ¬ (∀ w ∈ phrase_set ("lamp jumping".data),
          w ∈ phrase_set ("stone jumping".data))
    ∧ ¬ (∀ w ∈ phrase_set ("stone jumping".data),
          w ∈ phrase_set ("lamp jumping".data)) :=
  ⟨by decide, by decide, by decide, by decide⟩

theorem claim_C3_witness :
    dedupReplaceFlag [("paper ocean".data)] = false
    ∧ List.Pairwise
        (fun p q => overlapGEB (phrase_set q) (phrase_set p) = false)
        (dedup_keep_best [("paper ocean".data)]) :=
  ⟨by decide, claim_C3 [("paper ocean".data)] (by decide)⟩

/-- C4 (amended): re-applying `_dedup_keep_best` to an already-deduplicated
list never invents a phrase — every phrase of the twice-deduplicated list is
in the once-deduplicated list — but the two lists need not be equal, as the
counterexample shows, so the deduplicator is not idempotent. -/
theorem claim_C4 (L : List (List Char)) (p : List Char)
    (hp : p ∈ dedup_keep_best (dedup_keep_best L)) : p ∈ dedup_keep_best L :=
  dedup_keep_best_subset _ p hp

/-- Counterexample to C4 as stated: `_dedup_keep_best` is not idempotent on
`dedupDemoList`. -/
theorem claim_C4_cex :
    dedup_keep_best (dedup_keep_best dedupDemoList)
      ≠ dedup_keep_best dedupDemoList := by decide

theorem claim_C4_witness :
    ("river tiger stone".data) ∈ dedup_keep_best dedupDemoList :=
  claim_C4 dedupDemoList ("river tiger stone".data) (by decide)

/-- C6: the transcript `emotionLostTranscript` contains the whole-word
emotion term `worried`, yet with `max_results = 10` no beat of the result
contains that token: the forced front insertion is undone when a later
set-overlap merge replaces the beat carrying it.  This contradicts the
source's own `Force-keep emotion words` comment and the spec's emotion-word
guarantee. -/
theorem claim_C6_bug :
    ("worried".data) ∈ cleanWords (expand_contractions emotionLostTranscript)
    ∧ extract_key_phrases emptyRanker emotionLostTranscript 10 =
        (["pencil jacket", "gamma jumping elephant"].map String.data)
    ∧ ((["pencil jacket", "gamma jumping elephant"].map String.data).all
        (fun p => !(phrase_tokens (clean_text p)).contains ("worried".data)))
        = true :=
  ⟨by decide, by decide, by decide⟩

/-- C8 (amended): filler, discourse and stopword vocabularies are pairwise
disjoint and disjoint from the generic-drop set except that the generic-drop
set shares exactly the two tokens `we` and `a` with the stopword set. -/
theorem claim_C8 :
    (∀ w ∈ FILLERS, ¬ w ∈ DISCOURSE ∧ ¬ w ∈ STOPWORDS ∧ ¬ w ∈ GENERIC_DROP)
    ∧ (∀ w ∈ DISCOURSE, ¬ w ∈ STOPWORDS ∧ ¬ w ∈ GENERIC_DROP)
    ∧ (∀ w ∈ STOPWORDS, w ∈ GENERIC_DROP → w = ("we".data) ∨ w = ("a".data))
    ∧ ("we".data) ∈ STOPWORDS ∧ ("we".data) ∈ GENERIC_DROP
    ∧ ("a".data) ∈ STOPWORDS ∧ ("a".data) ∈ GENERIC_DROP := by
  refine ⟨by decide, by decide, by decide, by decide, by decide, by decide,
    by decide⟩

/-- Counterexample to C8 as stated: the stopword and generic-drop
vocabularies are not disjoint. -/
theorem claim_C8_cex :
    ¬ (∀ w ∈ STOPWORDS, ¬ w ∈ GENERIC_DROP) := by decide


-- Sortedness of the final result by appearance position.

theorem surviving_sorted (r : List Char → List (List Char × ℚ)) (t : List Char) :
    List.Sorted (appearLe (normalize_tokens_for_order t)) (surviving_beats r t) := by
  have h : List.Sorted (appearLe (normalize_tokens_for_order t))
      (List.insertionSort (appearLe (normalize_tokens_for_order t))
        (rare_fill t (dedup_keep_best (inject_emotions t
          (dedup_keep_best (candidate_phrases r t)))))) :=
    List.sorted_insertionSort _ _
  exact List.Pairwise.sublist (List.filter_sublist _) h

theorem extract_sorted (r : List Char → List (List Char × ℚ)) (t : List Char)
    (k : Nat) :
    List.Sorted (appearLe (normalize_tokens_for_order t))
      (extract_key_phrases r t k) := by
  unfold extract_key_phrases
  split_ifs
  · exact List.sorted_singleton _
  · exact List.sorted_singleton _
  · exact List.sorted_singleton _
  · exact List.Pairwise.sublist (List.take_sublist _ _) (surviving_sorted r t)

theorem firstPosAux_not_found (pts : List (List Char)) :
    ∀ (full : List (List Char)) (i : Nat),
      (∀ tok ∈ pts, ¬ tok ∈ full) → firstPosAux pts i full = NOT_FOUND := by
  intro full
  induction full with
  | nil => intro i _; rfl
  | cons tk rest ih =>
    intro i h
    have hc : pts.contains tk = false := by
      by_contra hcon
      rw [Bool.not_eq_false] at hcon
      have htk : tk ∈ pts := by simpa using hcon
      exact h tk htk (List.mem_cons_self _ _)
    unfold firstPosAux
    simp only [hc, Bool.false_eq_true, if_false]
    exact ih (i + 1) (fun tok htok hmem => h tok htok (List.mem_cons_of_mem _ hmem))

/-- C5: whenever the first-appearance index (as the source computes it, with
`10 ** 9` for "never appears") of beat `A` in the normalized transcript token
sequence is strictly smaller than that of beat `B`, `A` precedes `B` in the
result; and a beat none of whose tokens occurs in that sequence gets the
sentinel index `10 ** 9`, hence sorts after every appearing beat. -/
theorem claim_C5 (r : List Char → List (List Char × ℚ)) (t : List Char)
    (k : Nat) :
    (∀ (i j : Fin (extract_key_phrases r t k).length),
        appearKey (normalize_tokens_for_order t)
            ((extract_key_phrases r t k).get i)
          < appearKey (normalize_tokens_for_order t)
            ((extract_key_phrases r t k).get j) →
        i < j)
    ∧ (∀ p : List Char,
        (∀ tok ∈ phrase_tokens (clean_text p),
          ¬ tok ∈ normalize_tokens_for_order t) →
        appearKey (normalize_tokens_for_order t) p = NOT_FOUND) := by
  constructor
  · intro i j hlt
    have hs := extract_sorted r t k
    rw [List.Sorted, List.pairwise_iff_get] at hs
    rcases lt_trichotomy i j with h | h | h
    · exact h
    · rw [h] at hlt; exact absurd hlt (lt_irrefl _)
    · have := hs j i h
      exact absurd (lt_of_lt_of_le hlt this) (lt_irrefl _)
  · intro p hp
    exact firstPosAux_not_found _ _ 0 hp

theorem claim_C5_witness :
    appearKey (normalize_tokens_for_order orderTranscript) ("zzzz".data)
        = NOT_FOUND
    ∧ ((⟨0, by decide⟩ : Fin (extract_key_phrases emptyRanker orderTranscript 10).length)
        < (⟨1, by decide⟩ : Fin (extract_key_phrases emptyRanker orderTranscript 10).length)) :=
  ⟨(claim_C5 emptyRanker orderTranscript 10).2 ("zzzz".data) (by decide),
    (claim_C5 emptyRanker orderTranscript 10).1 ⟨0, by decide⟩ ⟨1, by decide⟩
      (by decide)⟩


-- Round trip between word joining and whitespace splitting, used to compute
-- `_phrase_tokens` of `_clean_text` output.

theorem foldr_runStep_word (p : Char → Bool) :
    ∀ (w : List Char), w ≠ [] → (∀ c ∈ w, p c = false) →
      ∀ acc, w.foldr (runStep p) acc = consRun w acc := by
  intro w
  induction w with
  | nil => intro h; exact absurd rfl h
  | cons c w' ih =>
    intro _ hall acc
    have hc : p c = false := hall c (List.mem_cons_self _ _)
    by_cases hw : w' = []
    · subst hw
      simp only [List.foldr_cons, List.foldr_nil, runStep, hc,
        Bool.false_eq_true, if_false]
      cases acc <;> rfl
    · have hall' : ∀ c ∈ w', p c = false :=
        fun d hd => hall d (List.mem_cons_of_mem _ hd)
      rw [List.foldr_cons, ih hw hall' acc]
      cases acc with
      | nil =>
        simp only [consRun, runStep, hc, Bool.false_eq_true, if_false]
      | cons g gs =>
        simp only [consRun, runStep, hc, Bool.false_eq_true, if_false,
          List.cons_append]

theorem splitRuns_join (p : Char → Bool) (hsep : p ' ' = true) :
    ∀ (ws : List (List Char)),
      (∀ w ∈ ws, w ≠ [] ∧ ∀ c ∈ w, p c = false) →
      splitRuns p (joinWords ws) = ws := by
  intro ws
  induction ws with
  | nil => intro _; rfl
  | cons w ws' ih =>
    intro h
    rcases h w (List.mem_cons_self _ _) with ⟨hw, hwall⟩
    have h' : ∀ w' ∈ ws', w' ≠ [] ∧ ∀ c ∈ w', p c = false :=
      fun w' hw' => h w' (List.mem_cons_of_mem _ hw')
    have hwne : (!w.isEmpty) = true := by
      cases w with
      | nil => exact absurd rfl hw
      | cons a b => rfl
    cases ws' with
    | nil =>
      unfold splitRuns
      rw [show joinWords [w] = w from rfl, foldr_runStep_word p w hw hwall []]
      simp only [consRun, List.filter_cons, hwne, if_pos, List.filter_nil]
    | cons w2 ws'' =>
      unfold splitRuns
      rw [show joinWords (w :: w2 :: ws'')
            = w ++ ' ' :: joinWords (w2 :: ws'') from rfl,
        List.foldr_append, List.foldr_cons,
        show runStep p ' ' ((joinWords (w2 :: ws'')).foldr (runStep p) [])
            = [] :: (joinWords (w2 :: ws'')).foldr (runStep p) [] from by
          simp [runStep, hsep],
        foldr_runStep_word p w hw hwall _]
      simp only [consRun, List.append_nil, List.filter_cons, hwne, if_pos]
      have hih := ih h'
      unfold splitRuns at hih
      rw [hih]

theorem splitRuns_wf (p : Char → Bool) (s : List Char) :
    ∀ w ∈ splitRuns p s, w ≠ [] ∧ ∀ c ∈ w, p c = false := by
  have hraw : ∀ w ∈ s.foldr (runStep p) [], ∀ c ∈ w, p c = false := by
    induction s with
    | nil => intro w hw; simp at hw
    | cons a s' ih =>
      intro w hw
      rw [List.foldr_cons] at hw
      by_cases ha : p a
      · rw [show runStep p a (s'.foldr (runStep p) [])
              = [] :: s'.foldr (runStep p) [] from by simp [runStep, ha]] at hw
        rcases List.mem_cons.mp hw with h | h
        · intro c hc; rw [h] at hc; simp at hc
        · exact ih w h
      · cases hfold : s'.foldr (runStep p) [] with
        | nil =>
          rw [hfold] at hw
          rw [show runStep p a [] = [[a]] from by simp [runStep, ha]] at hw
          simp only [List.mem_singleton] at hw
          intro c hc
          rw [hw] at hc
          rcases List.mem_cons.mp hc with h | h
          · rw [h]; simpa using ha
          · simp at h
        | cons g gs =>
          rw [hfold] at hw
          rw [show runStep p a (g :: gs) = (a :: g) :: gs from by
            simp [runStep, ha]] at hw
          rcases List.mem_cons.mp hw with h | h
          · intro c hc
            rw [h] at hc
            rcases List.mem_cons.mp hc with h' | h'
            · rw [h']; simpa using ha
            · refine ih g ?_ c h'
              rw [hfold]
              exact List.mem_cons_self _ _
          · refine ih w ?_
            rw [hfold]
            exact List.mem_cons_of_mem _ h
  intro w hw
  unfold splitRuns at hw
  rcases List.mem_filter.mp hw with ⟨hmem, hne⟩
  refine ⟨?_, hraw w hmem⟩
  intro hnil
  rw [hnil] at hne
  simp at hne

theorem cleanWords_wf (s : List Char) :
    ∀ w ∈ cleanWords s, w ≠ [] ∧ ∀ c ∈ w, pySpaceB c = false := by
  intro w hw
  exact splitRuns_wf pySpaceB _ w hw

theorem splitWS_clean_text (s : List Char) :
    splitWS (clean_text s) = cleanWords s := by
  unfold clean_text splitWS
  exact splitRuns_join pySpaceB (by decide) (cleanWords s) (cleanWords_wf s)

theorem phrase_tokens_clean_text (s : List Char) :
    phrase_tokens (clean_text s) = ptFilter (cleanWords s) := by
  unfold phrase_tokens
  rw [splitWS_clean_text]


-- Members of a verified prefix/infix, first-occurrence dedup, and filters.

theorem isPreB_mem [BEq α] [LawfulBEq α] :
    ∀ (ws l : List α), isPreB ws l = true → ∀ w ∈ ws, w ∈ l := by
  intro ws
  induction ws with
  | nil => intro l _ w hw; simp at hw
  | cons a as ih =>
    intro l h w hw
    cases l with
    | nil => simp [isPreB] at h
    | cons b bs =>
      rw [isPreB, Bool.and_eq_true] at h
      rcases List.mem_cons.mp hw with h' | h'
      · rw [h', eq_of_beq h.1]
        exact List.mem_cons_self _ _
      · exact List.mem_cons_of_mem _ (ih bs h.2 w h')

theorem listIsInfixB_mem [BEq α] [LawfulBEq α] :
    ∀ (l ws : List α), listIsInfixB ws l = true → ∀ w ∈ ws, w ∈ l := by
  intro l
  induction l with
  | nil =>
    intro ws h w hw
    rw [listIsInfixB] at h
    rw [List.isEmpty_iff.mp h] at hw
    simp at hw
  | cons c rest ih =>
    intro ws h w hw
    rw [listIsInfixB, Bool.or_eq_true] at h
    rcases h with h | h
    · exact isPreB_mem ws (c :: rest) h w hw
    · exact List.mem_cons_of_mem _ (ih ws h w hw)

theorem keepFirsts_mem [BEq α] :
    ∀ (l seen : List α) (x : α), x ∈ keepFirsts seen l → x ∈ l := by
  intro l
  induction l with
  | nil => intro seen x hx; simpa [keepFirsts] using hx
  | cons a rest ih =>
    intro seen x hx
    rw [keepFirsts] at hx
    by_cases h : seen.contains a
    · rw [if_pos h] at hx
      exact List.mem_cons_of_mem _ (ih seen x hx)
    · rw [if_neg h] at hx
      rcases List.mem_cons.mp hx with h' | h'
      · exact h' ▸ List.mem_cons_self _ _
      · exact List.mem_cons_of_mem _ (ih _ x h')

theorem snd_mem_of_mem_enum {l : List α} {x : Nat × α} (hx : x ∈ l.enum) :
    x.2 ∈ l := by
  have h := List.mem_map_of_mem Prod.snd hx
  rwa [List.enum_map_snd] at h

theorem ptFilter_eq_nil (ws : List (List Char))
    (h : ∀ w ∈ ws, w ∈ FILLERS ∨ w ∈ DISCOURSE ∨ w ∈ STOPWORDS) :
    ptFilter ws = [] := by
  rw [ptFilter, List.filter_eq_nil_iff]
  intro w hw hpred
  simp only [Bool.and_eq_true, Bool.not_eq_true'] at hpred
  rcases h w hw with h' | h' | h'
  · have hc : FILLERS.contains w = true := by simpa using h'
    rw [hpred.1.1.1.1] at hc
    cases hc
  · have hc : DISCOURSE.contains w = true := by simpa using h'
    rw [hpred.1.1.2] at hc
    cases hc
  · have hc : STOPWORDS.contains w = true := by simpa using h'
    rw [hpred.1.1.1.2] at hc
    cases hc

theorem zip_self_map (f : List Char → List (List Char)) :
    ∀ (M : List (List Char)),
      M.zip (M.map f) = M.map (fun p => (p, f p)) := by
  intro M
  induction M with
  | nil => rfl
  | cons a M ih => simp [ih]

-- When every phrase has an empty filtered-token list the deduplicator
-- removes everything (the containment stage keeps only phrases with a
-- non-empty cleaned form).

theorem dedup_containment_nil (L : List (List Char))
    (h : ∀ p ∈ L, phrase_tokens (clean_text p) = []) :
    dedup_containment_strings L = [] := by
  unfold dedup_containment_strings keepByIdx
  rw [zip_self_map]
  have hfil : (((L.map (fun p => (p, phrase_tokens (clean_text p)))).enum).filter
      (fun x =>
        (fun i pr =>
          !pr.2.isEmpty &&
          !((L.map (fun p => phrase_tokens (clean_text p))).enum.any (fun jq =>
              (jq.1 != i) && (joinWords jq.2 != joinWords pr.2) &&
              decide ((joinWords pr.2).length < (joinWords jq.2).length) &&
              listIsInfixB pr.2 jq.2)))
        x.1 x.2)) = [] := by
    rw [List.filter_eq_nil_iff]
    intro x hx
    have hmem := snd_mem_of_mem_enum hx
    rcases List.mem_map.mp hmem with ⟨a, ha, hpair⟩
    have hempty : x.2.2 = [] := by rw [← hpair]; exact h a ha
    simp [hempty]
  rw [hfil]
  rfl

theorem dedup_keep_best_nil (L : List (List Char))
    (h : ∀ p ∈ L, phrase_tokens (clean_text p) = []) :
    dedup_keep_best L = [] := by
  unfold dedup_keep_best
  rw [dedup_containment_nil L h]
  rfl


-- Under a token sequence made only of filler/discourse/stopword words, the
-- only story rule that can fire is the stopword time marker `today`.

theorem story_raw_member (toks : List (List Char))
    (Ha : ∀ w ∈ toks, w ∈ FILLERS ∨ w ∈ DISCOURSE ∨ w ∈ STOPWORDS) :
    ∀ ph ∈ story_rules_raw toks, ph = ("today".data) := by
  intro ph h2
  unfold story_rules_raw at h2
  rcases List.mem_append.mp h2 with h3 | h7
  · rcases List.mem_append.mp h3 with h4 | h7
    · rcases List.mem_append.mp h4 with h5 | h7
      · rcases List.mem_append.mp h5 with h6 | h7
        · rcases List.mem_append.mp h6 with hT | h7
          · -- time markers
            rcases List.mem_filter.mp hT with ⟨hmemT, hf⟩
            have hT6 : ph = ("today".data) ∨ ph = ("yesterday".data)
                ∨ ph = ("after lunch".data) ∨ ph = ("before lunch".data)
                ∨ ph = ("next day".data) ∨ ph = ("tomorrow".data) := by
              simpa [TIME_MARKERS] using hmemT
            rcases hT6 with h' | h' | h' | h' | h' | h'
            · exact h'
            · subst h'
              have hmem := listIsInfixB_mem _ _ hf ("yesterday".data)
                (by decide)
              exact absurd (Ha _ hmem) (by decide)
            · subst h'
              have hmem := listIsInfixB_mem _ _ hf ("after".data) (by decide)
              exact absurd (Ha _ hmem) (by decide)
            · subst h'
              have hmem := listIsInfixB_mem _ _ hf ("before".data) (by decide)
              exact absurd (Ha _ hmem) (by decide)
            · subst h'
              have hmem := listIsInfixB_mem _ _ hf ("next".data) (by decide)
              exact absurd (Ha _ hmem) (by decide)
            · subst h'
              have hmem := listIsInfixB_mem _ _ hf ("tomorrow".data)
                (by decide)
              exact absurd (Ha _ hmem) (by decide)
          · -- rain chunk
            by_cases hra : (toks.any (fun w =>
                w == ("rain".data) || w == ("raining".data)
                || w == ("rained".data))) = true
            · rcases List.any_eq_true.mp hra with ⟨w, hwmem, hor⟩
              simp only [Bool.or_eq_true, beq_iff_eq] at hor
              rcases hor with (h' | h') | h' <;>
                (subst h'; exact absurd (Ha _ hwmem) (by decide))
            · rw [Bool.not_eq_true] at hra
              rw [hra] at h7
              simp at h7
        · -- weather chunk
          by_cases hwe : (toks.contains ("weather".data)) = true
          · have hmem : ("weather".data) ∈ toks := by simpa using hwe
            exact absurd (Ha _ hmem) (by decide)
          · rw [Bool.not_eq_true] at hwe
            rw [hwe] at h7
            simp at h7
      · -- tire chunk
        by_cases hti : (toks.any (fun w =>
            w == ("tire".data) || w == ("tiring".data)
            || w == ("tired".data))) = true
        · rcases List.any_eq_true.mp hti with ⟨w, hwmem, hor⟩
          simp only [Bool.or_eq_true, beq_iff_eq] at hor
          rcases hor with (h' | h') | h' <;>
            (subst h'; exact absurd (Ha _ hwmem) (by decide))
        · rw [Bool.not_eq_true] at hti
          rw [hti] at h7
          simp at h7
    · -- sleep chunk
      by_cases hsl : (toks.contains ("sleep".data)) = true
      · have hmem : ("sleep".data) ∈ toks := by simpa using hsl
        exact absurd (Ha _ hmem) (by decide)
      · rw [Bool.not_eq_true] at hsl
        rw [hsl] at h7
        simp at h7
  · -- go home chunk
    by_cases hgo : (listIsInfixB (["go", "home"].map String.data) toks
        || listIsInfixB (["wanted", "to", "go", "home"].map String.data)
          toks) = true
    · rcases Bool.or_eq_true _ _ |>.mp hgo with hg | hg
      · have hmem := listIsInfixB_mem _ _ hg ("go".data) (by decide)
        exact absurd (Ha _ hmem) (by decide)
      · have hmem := listIsInfixB_mem _ _ hg ("wanted".data) (by decide)
        exact absurd (Ha _ hmem) (by decide)
    · rw [Bool.not_eq_true] at hgo
      rw [hgo] at h7
      simp at h7

theorem story_member_today (t : List Char)
    (Ha : ∀ w ∈ cleanWords (expand_contractions t),
      w ∈ FILLERS ∨ w ∈ DISCOURSE ∨ w ∈ STOPWORDS) :
    ∀ ph ∈ story_rule_phrases t, ph = ("today".data) := by
  intro ph hph
  unfold story_rule_phrases at hph
  have h1 := keepFirsts_mem _ _ _ hph
  have h2 := (List.mem_filter.mp h1).1
  exact story_raw_member _ Ha ph h2

/-- C7: a transcript all of whose tokens are filler, discourse or stopword
vocabulary members (punctuation is removed by cleaning; the hypothesis also
covers each clause the splitter produces) extracts to exactly `["neutral"]`,
even though the stopword `today` can fire a story rule on such input. -/
theorem claim_C7 (r : List Char → List (List Char × ℚ)) (t : List Char)
    (Ha : ∀ w ∈ cleanWords (expand_contractions t),
      w ∈ FILLERS ∨ w ∈ DISCOURSE ∨ w ∈ STOPWORDS)
    (Hb : ∀ c ∈ split_clauses_keep_punct t,
      ∀ w ∈ cleanWords (expand_contractions c),
        w ∈ FILLERS ∨ w ∈ DISCOURSE ∨ w ∈ STOPWORDS)
    (k : Nat) :
    extract_key_phrases r t k = [neutralPhrase] := by
  have hdnil : dedup_keep_best [] = [] := rfl
  have hclause : ∀ c ∈ split_clauses_keep_punct t,
      extract_from_clause r c = [] := by
    intro c hc
    have htoks : phrase_tokens (clean_text (expand_contractions c)) = [] := by
      rw [phrase_tokens_clean_text]
      exact ptFilter_eq_nil _ (Hb c hc)
    unfold extract_from_clause
    rw [htoks]
    rfl
  have hflat : ((split_clauses_keep_punct t).map
      (extract_from_clause r)).flatten = [] := by
    rw [List.flatten_eq_nil_iff]
    intro l hl
    rcases List.mem_map.mp hl with ⟨c, hc, rfl⟩
    exact hclause c hc
  have hcand : ∀ p ∈ candidate_phrases r t,
      phrase_tokens (clean_text p) = [] := by
    intro p hp
    unfold candidate_phrases at hp
    rw [hflat, List.append_nil] at hp
    rw [story_member_today t Ha p hp]
    decide
  have hpres : present_emotions t = [] := by
    rw [present_emotions, List.filter_eq_nil_iff]
    intro w hw hcon
    have hwmem : w ∈ cleanWords (expand_contractions t) := by simpa using hcon
    have hdis : ∀ e ∈ EMOTION_WORDS,
        ¬(e ∈ FILLERS ∨ e ∈ DISCOURSE ∨ e ∈ STOPWORDS) := by decide
    exact hdis w hw (Ha w hwmem)
  have hrare : rare_tokens t = [] := by
    unfold rare_tokens
    rw [phrase_tokens_clean_text, ptFilter_eq_nil _ Ha]
    rfl
  have hsurv : surviving_beats r t = [] := by
    unfold surviving_beats pipeline_after
    rw [dedup_keep_best_nil _ hcand,
      show inject_emotions t [] = [] from by simp [inject_emotions, hpres],
      hdnil,
      show rare_fill t [] = [] from by
        simp [rare_fill, hrare, RARE_TOKEN_FILL_THRESHOLD, hdnil]]
    rfl
  unfold extract_key_phrases
  split_ifs with h1 h2 h3
  · rfl
  · rfl
  · rfl
  · rw [hsurv] at h3; simp at h3

theorem claim_C7_witness :
    (∀ w ∈ cleanWords (expand_contractions fillerOnlyTranscript),
        w ∈ FILLERS ∨ w ∈ DISCOURSE ∨ w ∈ STOPWORDS)
    ∧ extract_key_phrases emptyRanker fillerOnlyTranscript 10
        = [neutralPhrase] :=
  ⟨by decide,
    claim_C7 emptyRanker fillerOnlyTranscript (by decide) (by decide) 10⟩

end Sayless
